import Mathlib

/-!
# Verification of `treegen` (`src/treegen/treegen.py`)

A shallow embedding of the WROM tree generator `treegen.py` into Lean 4,
together with theorems settling the specification claims.

Conventions of the embedding:
* A Python `List[int]` level sequence is a `List Nat` (all depths are
  non-negative in every reachable state of the program).
* Python functions that can raise are modelled with `Except String`;
  the unbounded `while` loop of the generator is modelled with explicit
  fuel, `none` meaning "fuel exhausted" (not a Python behaviour).
* Python's `max` on a (always non-empty at call sites) list of naturals
  is `pyMax`, a fold of `max` with neutral element `0`.
* Python's list comparison `l > r` is `pyListGt` (lexicographic,
  a strict prefix is smaller).
* In Python, calling a generator function executes none of its body;
  the body runs when the resulting generator is first consumed.  The
  call itself is `generate_trees_level_order_call` (which cannot raise)
  and consuming the generator is `generate_trees_level_order_run`.
-/

namespace Treegen

/-- Python `max` over a list of naturals (call sites only use non-empty
lists, where folding `max` from `0` agrees with Python's `max`). -/
def pyMax (l : List Nat) : Nat := l.foldl max 0

/-- Python list comparison `l > r`: lexicographic, first difference
decides, a strict prefix is smaller than the longer list. -/
def pyListGt : List Nat → List Nat → Bool
  | [], _ => false
  | _ :: _, [] => true
  | a :: as, b :: bs =>
    if b < a then true
    else if a < b then false
    else pyListGt as bs

/-- The split point of `split_tree`:
`ones = [index for index, val in enumerate(layout) if val == 1]` and
`ones[1] if len(ones) > 1 else len(layout)`. -/
def split_index_of (layout : List Nat) : Nat :=
  match (List.range layout.length).filter (fun i => layout.getD i 0 = 1) with
  | _ :: i :: _ => i
  | _ => layout.length

/-- `split_tree(layout)`: find the second index holding depth `1`
(default: the length when there is no second `1`), return the first
child's subtree re-based by `-1` and the root together with the rest.
Mirrors `layout[1:split_index]` and `[0] + layout[split_index:]`. -/
def split_tree (layout : List Nat) : List Nat × List Nat :=
  let split_index := split_index_of layout
  let left_subtree := ((layout.drop 1).take (split_index - 1)).map (· - 1)
  let remaining_subtree := 0 :: layout.drop split_index
  (left_subtree, remaining_subtree)

/-- `generate_centered_tree_layout(n)`:
`list(range(n // 2 + 1)) + list(range(1, (n + 1) // 2))`. -/
def generate_centered_tree_layout (n_vertices : Nat) : List Nat :=
  List.range (n_vertices / 2 + 1) ++ List.range' 1 ((n_vertices + 1) / 2 - 1)

/-- The backward scan `while predecessor[left_order] == 1: left_order -= 1`
starting at index `i`.  (Python would fault below index `0`; on every
call site the entry at index `0` is `0`, so the scan stops at `0` at the
latest, which the recursion makes explicit.) -/
def find_pivot (pred : List Nat) : Nat → Nat
  | 0 => 0
  | i + 1 => if pred.getD (i + 1) 0 = 1 then find_pivot pred i else i + 1

/-- The backward scan `while predecessor[q] != predecessor[left_order] - 1:
q -= 1` starting at index `j`.  (Python would fault below index `0`; on
every call site a matching index exists, so the base case is unreachable
unless the match is at `0` itself.) -/
def find_q (pred : List Nat) (target : Nat) : Nat → Nat
  | 0 => 0
  | j + 1 => if pred.getD (j + 1) 0 = target then j + 1 else find_q pred target j

/-- `next_rooted_tree(predecessor, left_order=None)`.  The in-place fill
`result[i] = result[i - left_order + q]` for `i` in
`range(left_order, len(result))` is the `List.foldl` of `List.set`
over those indices, reading back the partially updated list. -/
def next_rooted_tree (predecessor : List Nat) (left_order : Option Nat) :
    Option (List Nat) :=
  let p := match left_order with
    | some o => o
    | none => find_pivot predecessor (predecessor.length - 1)
  if p = 0 then
    none
  else
    let q := find_q predecessor (predecessor.getD p 0 - 1) (p - 1)
    some ((List.range' p (predecessor.length - p)).foldl
      (fun res i => res.set i (res.getD (i - p + q) 0)) predecessor)

/-- `candidate_valid(l_tree, r_tree)`: validity flag and the order of the
left subtree. -/
def candidate_valid (l_tree r_tree : List Nat) : Bool × Nat :=
  let l_height := pyMax l_tree
  let r_height := pyMax r_tree
  if r_height < l_height then
    (false, l_tree.length)
  else
    let l_order := l_tree.length
    let r_order := r_tree.length
    if l_height = r_height then
      if r_order < l_order then
        (false, l_order)
      else if l_order = r_order ∧ pyListGt l_tree r_tree then
        (false, l_order)
      else
        (true, l_order)
    else
      (true, l_order)

/-- Python slice assignment `xs[-len(suffix):] = suffix` (for
`suffix ≠ []`): replace the last `len(suffix)` entries.  `Nat`
subtraction models Python's clamping when the suffix is longer. -/
def pySetSuffix (xs suffix : List Nat) : List Nat :=
  xs.take (xs.length - suffix.length) ++ suffix

/-- `generate_new_candidate(candidate, left_subtree_order)`.  (When
`next_rooted_tree` returns `None`, Python either returns `None` or
faults on the subsequent `split_tree(None)`; that branch is unreachable
from the generator, where `left_subtree_order ≥ 1`.) -/
def generate_new_candidate (candidate : List Nat) (left_subtree_order : Nat) :
    Option (List Nat) :=
  match next_rooted_tree candidate (some left_subtree_order) with
  | none => none
  | some new_candidate =>
    if 2 < candidate.getD left_subtree_order 0 then
      let new_left_subtree := (split_tree new_candidate).1
      let new_left_height := pyMax new_left_subtree
      -- `range(1, new_left_height + 2)` = `[1, …, new_left_height + 1]`
      let suffix := List.range' 1 (new_left_height + 1)
      some (pySetSuffix new_candidate suffix)
    else
      some new_candidate

/-- `next_tree(candidate)`: one canonicalisation pass. -/
def next_tree (candidate : List Nat) : Option (List Nat) :=
  let s := split_tree candidate
  let v := candidate_valid s.1 s.2
  if v.1 then some candidate else generate_new_candidate candidate v.2

/-- The `while layout is not None` loop of `generate_trees_level_order`,
with fuel; each iteration runs `layout = next_tree(layout)`, yields it
when not `None`, then advances with `layout = next_rooted_tree(layout)`. -/
def gen_loop : Nat → List Nat → Option (List (List Nat))
  | 0, _ => none
  | fuel + 1, layout =>
    match next_tree layout with
    | none => some []
    | some t =>
      match next_rooted_tree t none with
      | none => some [t]
      | some nxt => (gen_loop fuel nxt).map (t :: ·)

/-- A Python generator object for `generate_trees_level_order`,
identified by the captured argument. -/
structure PyGenerator where
  n : Int
deriving DecidableEq

/-- Calling the generator function `generate_trees_level_order(n)`.
A Python generator function executes none of its body at call time, so
the call never raises; it returns a suspended generator object. -/
def generate_trees_level_order_call (n : Int) : Except String PyGenerator :=
  .ok ⟨n⟩

/-- Consuming the generator: the body of `generate_trees_level_order`
runs at the first `next()`.  `some (.error _)` is a raised exception,
`some (.ok l)` is exhaustion after yielding the sequences `l`, and
`none` means the fuel ran out. -/
def generate_trees_level_order_run (g : PyGenerator) (fuel : Nat) :
    Option (Except String (List (List Nat))) :=
  if g.n ≤ 0 then
    some (.error "Number of vertices provided was less than one.")
  else if g.n = 1 then
    some (.ok [])
  else
    (gen_loop fuel (generate_centered_tree_layout g.n.toNat)).map .ok

/-- `generate_trees_level_order(n)` call followed by full consumption. -/
def generate_trees_level_order (n : Int) (fuel : Nat) :
    Option (Except String (List (List Nat))) :=
  generate_trees_level_order_run ⟨n⟩ fuel

/-- The number of sequences the loop yields, plus `acc` (an accumulator
version of `(gen_loop fuel layout).map List.length`, so that large
instances evaluate without materialising the list of results). -/
def gen_loop_count : Nat → List Nat → Nat → Option Nat
  | 0, _, _ => none
  | fuel + 1, layout, acc =>
    match next_tree layout with
    | none => some acc
    | some t =>
      match next_rooted_tree t none with
      | none => some (acc + 1)
      | some nxt => gen_loop_count fuel nxt (acc + 1)

/-- Whether every sequence yielded by the loop satisfies `P` (and `acc`
holds), an accumulator version of `(gen_loop fuel layout).map (·.all P)`. -/
def gen_loop_all (P : List Nat → Bool) : Nat → List Nat → Bool → Option Bool
  | 0, _, _ => none
  | fuel + 1, layout, acc =>
    match next_tree layout with
    | none => some acc
    | some t =>
      match next_rooted_tree t none with
      | none => some (acc && P t)
      | some nxt => gen_loop_all P fuel nxt (acc && P t)

/-- The number of sequences `generate_trees_level_order(n)` yields for
`n ≥ 2`, within `fuel` loop iterations. -/
def generate_trees_count (n_vertices : Nat) (fuel : Nat) : Option Nat :=
  gen_loop_count fuel (generate_centered_tree_layout n_vertices) 0

/-- The level-sequence invariants of §3 of the specification: the
sequence is non-empty, starts at depth `0`, and every later entry `e`
satisfies `1 ≤ e` and `e ≤ previous + 1`. -/
def ValidLevelSeq (t : List Nat) : Prop :=
  t ≠ [] ∧ t.getD 0 0 = 0 ∧
    ∀ i, i < t.length → 1 ≤ i → 1 ≤ t.getD i 0 ∧ t.getD i 0 ≤ t.getD (i - 1) 0 + 1

instance (t : List Nat) : Decidable (ValidLevelSeq t) := by
  unfold ValidLevelSeq; infer_instance

/-- The `while top_level >= level: stack.pop(); …` loop of
`level_order_to_adjacency_matrix`; the stack is held top-first.
(Python re-reads `stack[-1]` after each pop and would fault on an empty
stack; on every reachable state the bottom entry `0` has level `0`,
strictly below `level`, so the loop stops before emptying the stack.) -/
def popStack (tree : List Nat) (level : Nat) : List Nat → List Nat
  | [] => []
  | t :: rest => if level ≤ tree.getD t 0 then popStack tree level rest else t :: rest

/-- `matrix[i][j] = 1` on a row-list matrix. -/
def setCell (m : List (List Nat)) (i j : Nat) : List (List Nat) :=
  m.set i ((m.getD i []).set j 1)

/-- One iteration of the `for index, level in enumerate(tree)` loop:
pop ancestors at depth `≥ level`, connect `index` to the exposed stack
top (when the stack was non-empty), push `index`. -/
def adjStep (tree : List Nat) (st : List (List Nat) × List Nat) (index : Nat) :
    List (List Nat) × List Nat :=
  match st with
  | (matrix, []) => (matrix, [index])
  | (matrix, s :: stack) =>
    let popped := popStack tree (tree.getD index 0) (s :: stack)
    let stack_top := popped.headD 0
    (setCell (setCell matrix stack_top index) index stack_top, index :: popped)

/-- `level_order_to_adjacency_matrix(tree)`. -/
def level_order_to_adjacency_matrix (tree : List Nat) : List (List Nat) :=
  ((List.range tree.length).foldl (adjStep tree)
    (List.replicate tree.length (List.replicate tree.length 0), [])).1

/-- Invariant of the adjacency-matrix construction after processing the
first `k` vertices: square shape, symmetry, `0/1` entries supported on
distinct processed indices, entry sum `2(k-1)`, a smaller-index
neighbour for every processed non-root vertex, and a stack of processed
indices whose bottom is the root `0`. -/
def AdjInv (tree : List Nat) (k : Nat) (ms : List (List Nat) × List Nat) : Prop :=
  ms.1.length = tree.length ∧
  (∀ row ∈ ms.1, row.length = tree.length) ∧
  (∀ i j, (ms.1.getD i []).getD j 0 = (ms.1.getD j []).getD i 0) ∧
  (∀ i j, (ms.1.getD i []).getD j 0 = 0 ∨ (ms.1.getD i []).getD j 0 = 1) ∧
  (∀ i j, (ms.1.getD i []).getD j 0 = 1 → i < k ∧ j < k ∧ i ≠ j) ∧
  (ms.1.map List.sum).sum = 2 * (k - 1) ∧
  (∀ j, 1 ≤ j → j < k → ∃ i, i < j ∧ (ms.1.getD i []).getD j 0 = 1) ∧
  (k = 0 → ms.2 = []) ∧
  (1 ≤ k → ms.2.getLast? = some 0 ∧ ∀ x ∈ ms.2, x < k)

/-- `generate_trees_adjacency_matrix(n)`: the level-order generator
composed with the adjacency-matrix transform. -/
def generate_trees_adjacency_matrix (n : Int) (fuel : Nat) :
    Option (Except String (List (List (List Nat)))) :=
  (generate_trees_level_order n fuel).map (Except.map (·.map level_order_to_adjacency_matrix))

/-- The count table of `non_isomorphic_rooted_tree_count`, verbatim. -/
def oeis_counts : List Int :=
  [1, 1, 1, 1, 2, 3, 6, 11, 23, 47, 106, 235, 551, 1301, 3159, 7741, 19320,
   48629, 123867, 317955, 823065, 2144505, 5623756, 14828074, 39299897,
   104636890, 279793450, 751065460, 2023443032, 5469566585, 14830871802,
   40330829030, 109972410221, 300628862480, 823779631721, 2262366343746,
   6226306037178]

/-- Python list subscription `xs[i]` for an `int` index: negative indices
count from the end (one wrap only); anything else raises `IndexError`. -/
def pyIndex (xs : List Int) (i : Int) : Except String Int :=
  if 0 ≤ i ∧ i < xs.length then
    .ok (xs.getD i.toNat 0)
  else if -(xs.length : Int) ≤ i ∧ i < 0 then
    .ok (xs.getD (i + xs.length).toNat 0)
  else
    .error "list index out of range"

/-- `non_isomorphic_rooted_tree_count(n)`: guarded table subscription. -/
def non_isomorphic_rooted_tree_count (n_vertices : Int) : Except String Int :=
  if n_vertices < (oeis_counts.length : Int) then
    pyIndex oeis_counts n_vertices
  else
    .error "Number of vertices must be less than 37"

/-! ## Theorems -/

/-! ### The count table (claims C3 and C10) -/

theorem oeis_counts_length : oeis_counts.length = 37 := rfl

/-- Lookup at a non-negative in-range index returns the table entry. -/
theorem count_lookup_nonneg (n : Nat) (h : n ≤ 36) :
    non_isomorphic_rooted_tree_count n = .ok (oeis_counts.getD n 0) := by
  unfold non_isomorphic_rooted_tree_count pyIndex
  rw [oeis_counts_length]
  have h1 : (n : Int) < 37 := by exact_mod_cast Nat.lt_succ_of_le h
  rw [if_pos (by exact_mod_cast h1), if_pos ⟨Int.natCast_nonneg n, by exact_mod_cast h1⟩]
  simp

/-- Lookup at an index `≥ 37` raises the out-of-range `ValueError`. -/
theorem count_error_ge37 (n : Int) (h : 37 ≤ n) :
    non_isomorphic_rooted_tree_count n = .error "Number of vertices must be less than 37" := by
  unfold non_isomorphic_rooted_tree_count
  rw [oeis_counts_length, if_neg (by omega)]

/-- Lookup at a negative index `≥ -37` wraps around (Python negative
indexing) and returns the entry at `n + 37` without raising. -/
theorem count_neg_wrap (n : Int) (h1 : -37 ≤ n) (h2 : n < 0) :
    non_isomorphic_rooted_tree_count n = .ok (oeis_counts.getD (n + 37).toNat 0) := by
  unfold non_isomorphic_rooted_tree_count pyIndex
  rw [oeis_counts_length]
  rw [if_pos (by omega), if_neg (by omega), if_pos (by constructor <;> omega)]
  norm_num

/-- Lookup below `-37` raises Python's `IndexError`, not the function's
own out-of-range `ValueError`. -/
theorem count_neg_error (n : Int) (h : n < -37) :
    non_isomorphic_rooted_tree_count n = .error "list index out of range" := by
  unfold non_isomorphic_rooted_tree_count pyIndex
  rw [oeis_counts_length]
  rw [if_pos (by omega), if_neg (by omega), if_neg (by omega)]

/-- C3, counterexample: `non_isomorphic_rooted_tree_count(4)` returns `2`,
not `4`; the table entry at `4` is not the number of non-isomorphic rooted
trees on 4 vertices (A000081(4) = 4). -/
theorem c3_counterexample :
    non_isomorphic_rooted_tree_count 4 = Except.ok 2 ∧ (2 : Int) ≠ 4 :=
  ⟨rfl, by decide⟩

/-- C3, amended: for every `0 ≤ n ≤ 36`, `non_isomorphic_rooted_tree_count(n)`
returns the fixed table entry at index `n` (the table holds the counts of
non-isomorphic free (unrooted) trees, OEIS A000055, not A000081); in
particular the value at `4` is `2`, which equals the number of sequences
`generate_trees_level_order(4)` produces. -/
theorem c3_amended :
    (∀ n : Nat, n ≤ 36 →
      non_isomorphic_rooted_tree_count n = .ok (oeis_counts.getD n 0)) ∧
    non_isomorphic_rooted_tree_count 4 = .ok 2 ∧
    generate_trees_count 4 32 = some 2 :=
  ⟨count_lookup_nonneg, rfl, rfl⟩

/-- C3, witness: the amended theorem applied at `n = 10`. -/
theorem c3_amended_witness :
    non_isomorphic_rooted_tree_count 10 = .ok 106 :=
  c3_amended.1 10 (by omega)

/-- C10, counterexample: `-1` lies outside `0 ≤ n ≤ 36` but the function
does not raise: Python negative indexing makes it return the last table
entry. -/
theorem c10_counterexample :
    non_isomorphic_rooted_tree_count (-1) = Except.ok 6226306037178 ∧
    (non_isomorphic_rooted_tree_count (-1)).isOk = true :=
  ⟨rfl, rfl⟩

/-- C10, amended: the function returns the table entry for `0 ≤ n ≤ 36`
and raises the out-of-range error for every `n ≥ 37` (in particular
`n = 40`); but for `-37 ≤ n < 0` Python negative indexing returns the
entry at `n + 37` without raising, and for `n < -37` the subscription
itself raises an `IndexError`. -/
theorem c10_amended :
    (∀ n : Nat, n ≤ 36 →
      non_isomorphic_rooted_tree_count n = .ok (oeis_counts.getD n 0)) ∧
    (∀ n : Int, 37 ≤ n →
      non_isomorphic_rooted_tree_count n = .error "Number of vertices must be less than 37") ∧
    non_isomorphic_rooted_tree_count 40 = .error "Number of vertices must be less than 37" ∧
    (∀ n : Int, -37 ≤ n → n < 0 →
      non_isomorphic_rooted_tree_count n = .ok (oeis_counts.getD (n + 37).toNat 0)) ∧
    (∀ n : Int, n < -37 →
      non_isomorphic_rooted_tree_count n = .error "list index out of range") :=
  ⟨count_lookup_nonneg, count_error_ge37, rfl, count_neg_wrap, count_neg_error⟩

/-- C10, witness: the amended theorem applied at `36`, `50`, `-37`, `-100`. -/
theorem c10_amended_witness :
    non_isomorphic_rooted_tree_count 36 = .ok 6226306037178 ∧
    non_isomorphic_rooted_tree_count 50 = .error "Number of vertices must be less than 37" ∧
    non_isomorphic_rooted_tree_count (-37) = .ok 1 ∧
    non_isomorphic_rooted_tree_count (-100) = .error "list index out of range" :=
  ⟨c10_amended.1 36 (by omega), c10_amended.2.1 50 (by omega),
   c10_amended.2.2.2.1 (-37) (by omega) (by omega), c10_amended.2.2.2.2 (-100) (by omega)⟩

/-- C8, counterexample: calling the generator function with `n = -1` raises
nothing (Python executes none of a generator function's body at call time);
the invalid-argument error appears only when the returned generator is
first consumed.  This refutes "raised immediately at the call, not
deferred". -/
theorem c8_counterexample :
    generate_trees_level_order_call (-1) = .ok ⟨-1⟩ ∧
    generate_trees_level_order_run ⟨-1⟩ 0 =
      some (.error "Number of vertices provided was less than one.") :=
  ⟨rfl, rfl⟩

/-- C8, amended: for every `n ≤ 0` the call itself succeeds (returns a
suspended generator) and the invalid-argument `ValueError` is raised at the
first consumption of the lazy sequence, whatever the fuel; for `n = 1`
nothing is raised and the sequence is empty. -/
theorem c8_amended : ∀ (n : Int) (fuel : Nat),
    (n ≤ 0 → generate_trees_level_order_call n = .ok ⟨n⟩ ∧
      generate_trees_level_order_run ⟨n⟩ fuel =
        some (.error "Number of vertices provided was less than one.")) ∧
    generate_trees_level_order_call 1 = .ok ⟨1⟩ ∧
    generate_trees_level_order_run ⟨1⟩ fuel = some (.ok []) := by
  intro n fuel
  refine ⟨fun h => ⟨rfl, ?_⟩, rfl, rfl⟩
  unfold generate_trees_level_order_run
  rw [if_pos h]

/-- C8, witness: the amended theorem applied at `n = 0`, fuel `7`. -/
theorem c8_amended_witness :
    generate_trees_level_order_call 0 = .ok ⟨0⟩ ∧
    generate_trees_level_order_run ⟨0⟩ 7 =
      some (.error "Number of vertices provided was less than one.") :=
  (c8_amended 0 7).1 (by omega)

/-- C2, counterexample: `generate_trees_level_order(3)` yields exactly one
sequence, `[0, 1, 1]`, not the two sequences `[0,1,2]` and `[0,1,1]`. -/
theorem c2_counterexample :
    generate_trees_level_order 3 2 = some (.ok [[0, 1, 1]]) ∧
    ([[0, 1, 1]] : List (List Nat)) ≠ [[0, 1, 2], [0, 1, 1]] :=
  ⟨rfl, by decide⟩

/-- C2, amended: for every positive fuel, `generate_trees_level_order(3)`
produces exactly one sequence: `[0, 1, 1]` (the star/cherry, which also
represents the 3-vertex path rooted at its centre). -/
theorem c2_amended : ∀ fuel : Nat, 1 ≤ fuel →
    generate_trees_level_order 3 fuel = some (.ok [[0, 1, 1]]) := by
  intro fuel h
  obtain ⟨f, rfl⟩ : ∃ f, fuel = f + 1 := ⟨fuel - 1, by omega⟩
  rfl

/-- C2, witness: the amended theorem applied at fuel `1`. -/
theorem c2_amended_witness :
    generate_trees_level_order 3 1 = some (.ok [[0, 1, 1]]) :=
  c2_amended 1 (by omega)

/-! ### `pyMax` computes the maximum entry -/

theorem foldl_max_le (l : List Nat) (a c : Nat) :
    l.foldl max a ≤ c ↔ a ≤ c ∧ ∀ x ∈ l, x ≤ c := by
  induction l generalizing a with
  | nil => simp
  | cons x xs ih => simp only [List.foldl_cons, ih, max_le_iff, List.mem_cons]; aesop

theorem le_pyMax_of_mem {l : List Nat} {x : Nat} (h : x ∈ l) : x ≤ pyMax l :=
  ((foldl_max_le l 0 (pyMax l)).1 le_rfl).2 x h

theorem foldl_max_mem (l : List Nat) (a : Nat) : l.foldl max a ∈ a :: l := by
  induction l generalizing a with
  | nil => simp
  | cons x xs ih =>
    rw [List.foldl_cons]
    rcases List.mem_cons.1 (ih (max a x)) with h | h
    · rcases max_choice a x with h' | h' <;> rw [h, h']
      · exact List.mem_cons_self _ _
      · exact List.mem_cons.2 (Or.inr (List.mem_cons_self _ _))
    · exact List.mem_cons.2 (Or.inr (List.mem_cons.2 (Or.inr h)))

/-- `pyMax l` is an entry of `l` or the neutral `0`; together with
`le_pyMax_of_mem` this identifies `pyMax` with the maximum entry of a
non-empty list, the `max(...)` of the source. -/
theorem pyMax_spec (l : List Nat) : pyMax l ∈ l ∨ pyMax l = 0 := by
  rcases List.mem_cons.1 (foldl_max_mem l 0) with h | h
  · exact Or.inr h
  · exact Or.inl h

/-- C7: `candidate_valid(left, right)` flags the pair invalid exactly when
the left subtree is taller, or equally tall and larger, or equally tall
and equally large and lexicographically greater; the second component is
always the order (vertex count) of the left subtree. -/
theorem c7_candidate_valid_correct (l r : List Nat) (_hl : l ≠ []) (_hr : r ≠ []) :
    (candidate_valid l r).2 = l.length ∧
    ((candidate_valid l r).1 = false ↔
      pyMax r < pyMax l ∨
        (pyMax l = pyMax r ∧ r.length < l.length) ∨
        (pyMax l = pyMax r ∧ l.length = r.length ∧ pyListGt l r = true)) := by
  unfold candidate_valid
  by_cases h1 : pyMax r < pyMax l
  · simp [h1]
  · by_cases h2 : pyMax l = pyMax r
    · by_cases h3 : r.length < l.length
      · simp [h1, h2, h3]
      · by_cases h4 : l.length = r.length ∧ pyListGt l r = true
        · simp [h1, h2, h3, h4]
        · simp [h1, h2, h3, h4]
    · simp [h1, h2]

/-- C7, witness: the theorem applied to the pair `([0], [0, 1])`. -/
theorem c7_candidate_valid_correct_witness :
    (candidate_valid [0] [0, 1]).2 = 1 ∧
    ((candidate_valid [0] [0, 1]).1 = false ↔
      pyMax [0, 1] < pyMax [0] ∨
        (pyMax [0] = pyMax [0, 1] ∧ List.length [0, 1] < List.length [0]) ∨
        (pyMax [0] = pyMax [0, 1] ∧ List.length [0] = List.length [0, 1] ∧
          pyListGt [0] [0, 1] = true)) :=
  c7_candidate_valid_correct [0] [0, 1] (by decide) (by decide)

/-! ### Basic `getD`/`set` bookkeeping -/

theorem getD_set_ne {α : Type} (l : List α) (i j : Nat) (a d : α) (h : i ≠ j) :
    (l.set i a).getD j d = l.getD j d := by
  simp [List.getD_eq_getElem?_getD, List.getElem?_set_ne h]

theorem getD_set_self {α : Type} (l : List α) (i : Nat) (a d : α) (h : i < l.length) :
    (l.set i a).getD i d = a := by
  simp [List.getD_eq_getElem?_getD, List.getElem?_set_self h]

/-! ### The pivot scan -/

theorem find_pivot_le (s : List Nat) (i : Nat) : find_pivot s i ≤ i := by
  induction i with
  | zero => simp [find_pivot]
  | succ j ih =>
    unfold find_pivot
    split
    · omega
    · omega

theorem find_pivot_ones (s : List Nat) (i : Nat) :
    ∀ k, find_pivot s i < k → k ≤ i → s.getD k 0 = 1 := by
  induction i with
  | zero => intro k h1 h2; omega
  | succ j ih =>
    intro k h1 h2
    unfold find_pivot at h1
    by_cases hj : s.getD (j + 1) 0 = 1
    · rw [if_pos hj] at h1
      rcases Nat.lt_succ_iff_lt_or_eq.1 (Nat.lt_succ_of_le h2) with h | h
      · exact ih k h1 (by omega)
      · rw [h]; exact hj
    · rw [if_neg hj] at h1; omega

theorem find_pivot_ne_one (s : List Nat) (i : Nat) (h : find_pivot s i ≠ 0) :
    s.getD (find_pivot s i) 0 ≠ 1 := by
  induction i with
  | zero => simp [find_pivot] at h
  | succ j ih =>
    unfold find_pivot at h ⊢
    by_cases hj : s.getD (j + 1) 0 = 1
    · rw [if_pos hj] at h ⊢; exact ih h
    · rw [if_neg hj]; exact hj

/-! ### The `q` scan -/

theorem find_q_le (s : List Nat) (t j : Nat) : find_q s t j ≤ j := by
  induction j with
  | zero => simp [find_q]
  | succ i ih =>
    unfold find_q
    split
    · omega
    · omega

theorem find_q_eq (s : List Nat) (t : Nat) :
    ∀ j, (∃ k, k ≤ j ∧ s.getD k 0 = t) → s.getD (find_q s t j) 0 = t := by
  intro j
  induction j with
  | zero =>
    rintro ⟨k, hk, he⟩
    simp only [find_q]
    have hk0 : k = 0 := by omega
    exact hk0 ▸ he
  | succ i ih =>
    rintro ⟨k, hk, he⟩
    unfold find_q
    by_cases hj : s.getD (i + 1) 0 = t
    · rw [if_pos hj]; exact hj
    · rw [if_neg hj]
      refine ih ⟨k, ?_, he⟩
      rcases Nat.lt_succ_iff_lt_or_eq.1 (Nat.lt_succ_of_le hk) with h | h
      · omega
      · exact absurd (h ▸ he) hj

theorem find_q_maximal (s : List Nat) (t : Nat) :
    ∀ j k, find_q s t j < k → k ≤ j → s.getD k 0 ≠ t := by
  intro j
  induction j with
  | zero => intro k h1 h2; omega
  | succ i ih =>
    intro k h1 h2
    unfold find_q at h1
    by_cases hj : s.getD (i + 1) 0 = t
    · rw [if_pos hj] at h1; omega
    · rw [if_neg hj] at h1
      rcases Nat.lt_succ_iff_lt_or_eq.1 (Nat.lt_succ_of_le h2) with h | h
      · exact ih k h1 (by omega)
      · rw [h]; exact hj

/-! ### The tail fill of `next_rooted_tree` -/

/-- The fold writing `res[i] = res[i - p + q]` at the increasing indices
`j, j+1, …` keeps the length, never changes positions below `j`, and
leaves every written position equal to the position `p - q` earlier. -/
theorem fill_aux (p q : Nat) (hq : q < p) : ∀ (count j : Nat) (res : List Nat),
    p ≤ j → j + count = res.length →
    (((List.range' j count).foldl
        (fun res i => res.set i (res.getD (i - p + q) 0)) res).length = res.length ∧
      (∀ i, i < j →
        ((List.range' j count).foldl
          (fun res i => res.set i (res.getD (i - p + q) 0)) res).getD i 0 = res.getD i 0) ∧
      (∀ i, j ≤ i → i < res.length →
        ((List.range' j count).foldl
            (fun res i => res.set i (res.getD (i - p + q) 0)) res).getD i 0 =
          ((List.range' j count).foldl
            (fun res i => res.set i (res.getD (i - p + q) 0)) res).getD (i - p + q) 0)) := by
  intro count
  induction count with
  | zero =>
    intro j res hpj hlen
    refine ⟨rfl, fun i _ => rfl, fun i h1 h2 => ?_⟩
    omega
  | succ c ih =>
    intro j res hpj hlen
    rw [List.range'_succ, List.foldl_cons]
    have hjlen : j < res.length := by omega
    set res' := res.set j (res.getD (j - p + q) 0) with hres'
    have hlen' : res'.length = res.length := by simp [hres']
    obtain ⟨ihl, ihlow, ihhigh⟩ := ih (j + 1) res' (by omega) (by omega)
    have hlow' : ∀ i, i < j →
        ((List.range' (j + 1) c).foldl
          (fun res i => res.set i (res.getD (i - p + q) 0)) res').getD i 0 = res.getD i 0 := by
      intro i hi
      rw [ihlow i (by omega), hres', getD_set_ne _ _ _ _ _ (by omega)]
    refine ⟨by rw [ihl, hlen'], hlow', ?_⟩
    intro i h1 h2
    rcases Nat.lt_or_ge j i with h | h
    · exact ihhigh i (by omega) (by omega)
    · have hij : i = j := by omega
      subst hij
      have e1 : ((List.range' (i + 1) c).foldl
          (fun res i => res.set i (res.getD (i - p + q) 0)) res').getD i 0
          = res.getD (i - p + q) 0 := by
        rw [ihlow i (by omega), hres', getD_set_self _ _ _ _ hjlen]
      have e2 : ((List.range' (i + 1) c).foldl
          (fun res i => res.set i (res.getD (i - p + q) 0)) res').getD (i - p + q) 0
          = res.getD (i - p + q) 0 := by
        rw [ihlow _ (by omega), hres', getD_set_ne _ _ _ _ _ (by omega)]
      rw [e1, e2]

/-! ### Valid level sequences -/

theorem valid_length_pos {t : List Nat} (hv : ValidLevelSeq t) : 0 < t.length :=
  List.length_pos.2 hv.1

theorem valid_head {t : List Nat} (hv : ValidLevelSeq t) : t.getD 0 0 = 0 := hv.2.1

theorem valid_step {t : List Nat} (hv : ValidLevelSeq t) {i : Nat}
    (h1 : 1 ≤ i) (h2 : i < t.length) :
    1 ≤ t.getD i 0 ∧ t.getD i 0 ≤ t.getD (i - 1) 0 + 1 :=
  hv.2.2 i h2 h1

theorem valid_entry_le_index {t : List Nat} (hv : ValidLevelSeq t) :
    ∀ i, i < t.length → t.getD i 0 ≤ i := by
  intro i
  induction i with
  | zero => intro _; rw [valid_head hv]
  | succ j ih =>
    intro h
    have hstep := (valid_step hv (Nat.succ_le_succ (Nat.zero_le j)) h).2
    simp only [Nat.succ_sub_one] at hstep
    have hj := ih (by omega)
    simp only [Nat.succ_eq_add_one] at *
    omega

theorem valid_second_entry {t : List Nat} (hv : ValidLevelSeq t) (h : 1 < t.length) :
    t.getD 1 0 = 1 := by
  have := valid_step hv le_rfl h
  rw [valid_head hv] at this
  omega

/-- Discrete intermediate-value property: depths increase by at most one,
so every depth `1 ≤ d ≤ t[i]` is attained at or before `i`. -/
theorem valid_reaches {t : List Nat} (hv : ValidLevelSeq t) :
    ∀ i, i < t.length → ∀ d, 1 ≤ d → d ≤ t.getD i 0 → ∃ k, k ≤ i ∧ t.getD k 0 = d := by
  intro i
  induction i with
  | zero =>
    intro _ d h1 h2
    rw [valid_head hv] at h2; omega
  | succ j ih =>
    intro h d h1 h2
    rcases Nat.lt_or_ge (t.getD j 0) d with hlt | hge
    · have hstep := (valid_step hv (Nat.succ_le_succ (Nat.zero_le j)) h).2
      simp only [Nat.succ_sub_one] at hstep
      simp only [Nat.succ_eq_add_one] at *
      exact ⟨j + 1, le_rfl, by omega⟩
    · obtain ⟨k, hk, he⟩ := ih (by omega) d h1 hge
      exact ⟨k, by omega, he⟩

/-- A depth-`d` vertex with `d ≥ 2` has an earlier vertex at depth `d - 1`. -/
theorem valid_exists_pred {t : List Nat} (hv : ValidLevelSeq t) {i : Nat}
    (hi : i < t.length) (h2 : 2 ≤ t.getD i 0) :
    ∃ k, k < i ∧ t.getD k 0 = t.getD i 0 - 1 := by
  obtain ⟨k, hk, he⟩ := valid_reaches hv i hi (t.getD i 0 - 1) (by omega) (by omega)
  refine ⟨k, ?_, he⟩
  rcases Nat.lt_or_ge k i with h | h
  · exact h
  · have : k = i := by omega
    subst this
    omega

/-! ### `next_rooted_tree` preserves validity -/

/-- Core lemma about the successor fill at a pivot `p ≥ 1` whose entry is
at least `2`: the `q` scan finds the nearest smaller depth, and the
filled sequence is a valid level sequence of the same length agreeing
with the input below `p`. -/
theorem next_fill_valid (s : List Nat) (hv : ValidLevelSeq s) (p : Nat)
    (hp1 : 1 ≤ p) (hp2 : p < s.length) (hs2 : 2 ≤ s.getD p 0) :
    1 ≤ find_q s (s.getD p 0 - 1) (p - 1) ∧ find_q s (s.getD p 0 - 1) (p - 1) < p ∧
    s.getD (find_q s (s.getD p 0 - 1) (p - 1)) 0 = s.getD p 0 - 1 ∧
    (((List.range' p (s.length - p)).foldl
        (fun res i => res.set i
          (res.getD (i - p + find_q s (s.getD p 0 - 1) (p - 1)) 0)) s).length = s.length ∧
      (∀ i, i < p →
        ((List.range' p (s.length - p)).foldl
          (fun res i => res.set i
            (res.getD (i - p + find_q s (s.getD p 0 - 1) (p - 1)) 0)) s).getD i 0 = s.getD i 0) ∧
      ValidLevelSeq ((List.range' p (s.length - p)).foldl
        (fun res i => res.set i
          (res.getD (i - p + find_q s (s.getD p 0 - 1) (p - 1)) 0)) s)) := by
  set q := find_q s (s.getD p 0 - 1) (p - 1) with hqdef
  obtain ⟨k, hk, hke⟩ := valid_exists_pred hv hp2 hs2
  have hqe : s.getD q 0 = s.getD p 0 - 1 :=
    find_q_eq s (s.getD p 0 - 1) (p - 1) ⟨k, by omega, hke⟩
  have hq1 : 1 ≤ q := by
    by_contra h
    have hq0 : q = 0 := by omega
    rw [hq0, valid_head hv] at hqe
    omega
  have hqp : q < p := by
    have := find_q_le s (s.getD p 0 - 1) (p - 1)
    omega
  obtain ⟨hlen, hlow, hrec⟩ :=
    fill_aux p q hqp (s.length - p) p s le_rfl (by omega)
  set r := (List.range' p (s.length - p)).foldl
    (fun res i => res.set i (res.getD (i - p + q) 0)) s with hrdef
  have hrlen : r.length = s.length := hlen
  refine ⟨hq1, hqp, hqe, hrlen, hlow, ?_⟩
  have hstep : ∀ i, 1 ≤ i → i < r.length → 1 ≤ r.getD i 0 ∧ r.getD i 0 ≤ r.getD (i - 1) 0 + 1 := by
    intro i
    induction i using Nat.strong_induction_on with
    | _ i IH =>
      intro h1 h2
      rcases Nat.lt_or_ge i p with hip | hip
      · rw [hlow i hip, hlow (i - 1) (by omega)]
        exact valid_step hv h1 (by omega)
      · rcases Nat.eq_or_lt_of_le hip with hip' | hip'
        · -- i = p: the fill reads position q
          have hri' : r.getD i 0 = s.getD p 0 - 1 := by
            rw [← hip']
            have hq : p - p + q = q := by omega
            rw [hrec p le_rfl (by omega), hq, hlow q hqp, hqe]
          have hri1 : r.getD (i - 1) 0 = s.getD (p - 1) 0 := by
            rw [← hip']
            exact hlow (p - 1) (by omega)
          have h2p := (valid_step hv (i := p) (by omega) (by omega)).2
          rw [hri', hri1]
          omega
        · -- i > p: both `i` and `i - 1` are in the periodic region
          have hri : r.getD i 0 = r.getD (i - p + q) 0 := hrec i hip (by omega)
          have hi' : i - p + q < i := by omega
          have h1' : 1 ≤ i - p + q := by omega
          have hstep' := IH (i - p + q) hi' h1' (by omega)
          have hri1 : r.getD (i - 1) 0 = r.getD (i - 1 - p + q) 0 :=
            hrec (i - 1) (by omega) (by omega)
          have e : i - p + q - 1 = i - 1 - p + q := by omega
          rw [hri, hri1, ← e]
          exact hstep'
  refine ⟨?_, ?_, fun i h2 h1 => hstep i h1 h2⟩
  · intro h
    rw [h] at hrlen
    have := valid_length_pos hv
    simp at hrlen
    omega
  · rw [hlow 0 (by omega)]
    exact valid_head hv

/-- `next_rooted_tree` with the default pivot scan, as an `if`. -/
theorem next_rooted_tree_default_eq (s : List Nat) :
    next_rooted_tree s none =
      if find_pivot s (s.length - 1) = 0 then none
      else some ((List.range' (find_pivot s (s.length - 1))
          (s.length - find_pivot s (s.length - 1))).foldl
        (fun res i => res.set i (res.getD (i - find_pivot s (s.length - 1) +
          find_q s (s.getD (find_pivot s (s.length - 1)) 0 - 1)
            (find_pivot s (s.length - 1) - 1)) 0)) s) := rfl

/-- `next_rooted_tree` with an explicit `left_order`, as an `if`. -/
theorem next_rooted_tree_some_eq (s : List Nat) (p : Nat) :
    next_rooted_tree s (some p) =
      if p = 0 then none
      else some ((List.range' p (s.length - p)).foldl
        (fun res i => res.set i
          (res.getD (i - p + find_q s (s.getD p 0 - 1) (p - 1)) 0)) s) := rfl

/-- On a valid sequence, the default `next_rooted_tree` returns a valid
sequence of the same length (or `none`). -/
theorem next_rooted_tree_default_valid {s r : List Nat} (hv : ValidLevelSeq s)
    (h : next_rooted_tree s none = some r) :
    r.length = s.length ∧ ValidLevelSeq r := by
  have hlen := valid_length_pos hv
  rw [next_rooted_tree_default_eq] at h
  by_cases hp : find_pivot s (s.length - 1) = 0
  · rw [if_pos hp] at h; cases h
  · rw [if_neg hp] at h
    injection h with h
    have hple : find_pivot s (s.length - 1) ≤ s.length - 1 := find_pivot_le s (s.length - 1)
    have hp2 : find_pivot s (s.length - 1) < s.length := by omega
    have hone : s.getD (find_pivot s (s.length - 1)) 0 ≠ 1 :=
      find_pivot_ne_one s (s.length - 1) hp
    have hge : 1 ≤ s.getD (find_pivot s (s.length - 1)) 0 :=
      (valid_step hv (by omega) hp2).1
    obtain ⟨_, _, _, hl, _, hvr⟩ :=
      next_fill_valid s hv (find_pivot s (s.length - 1)) (by omega) hp2 (by omega)
    rw [h] at hl hvr
    exact ⟨hl, hvr⟩

/-- On a valid sequence, `next_rooted_tree` with an explicit pivot
`1 ≤ p < len` whose entry is `≥ 2` succeeds and returns a valid sequence
of the same length agreeing with the input below `p`. -/
theorem next_rooted_tree_explicit_valid {s : List Nat} (hv : ValidLevelSeq s)
    {p : Nat} (hp1 : 1 ≤ p) (hp2 : p < s.length) (hs2 : 2 ≤ s.getD p 0) :
    ∃ r, next_rooted_tree s (some p) = some r ∧ r.length = s.length ∧ ValidLevelSeq r ∧
      ∀ i, i < p → r.getD i 0 = s.getD i 0 := by
  rw [next_rooted_tree_some_eq, if_neg (by omega)]
  obtain ⟨_, _, _, hl, hlow, hvr⟩ := next_fill_valid s hv p hp1 hp2 hs2
  exact ⟨_, rfl, hl, hvr, hlow⟩

/-- C6: on every valid level sequence, `next_rooted_tree` (with the
default pivot scan) returns none exactly when every entry after index 0
equals 1 (the pivot would be the root); otherwise, for the pivot `p`
(the rightmost index whose entry is not 1) and `q` (the rightmost index
below `p` whose entry is `s[p] - 1`), the result `r` keeps `s` below `p`
and satisfies `r[i] = r[i - p + q]` from `p` on. -/
theorem c6_next_rooted_tree_correct (s : List Nat) (hv : ValidLevelSeq s) :
    (next_rooted_tree s none = none ↔
      ∀ i, i < s.length → 1 ≤ i → s.getD i 0 = 1) ∧
    (∀ r p q, next_rooted_tree s none = some r →
      (p < s.length ∧ s.getD p 0 ≠ 1 ∧ ∀ k, k < s.length → p < k → s.getD k 0 = 1) →
      (q < p ∧ s.getD q 0 = s.getD p 0 - 1 ∧
        ∀ k, k < p → q < k → s.getD k 0 ≠ s.getD p 0 - 1) →
      r.length = s.length ∧ (∀ i, i < p → r.getD i 0 = s.getD i 0) ∧
        (∀ i, i < s.length → p ≤ i → r.getD i 0 = r.getD (i - p + q) 0)) := by
  have hlen := valid_length_pos hv
  constructor
  · rw [next_rooted_tree_default_eq]
    constructor
    · intro h i h2 h1
      by_cases hp : find_pivot s (s.length - 1) = 0
      · exact find_pivot_ones s (s.length - 1) i (by omega) (by omega)
      · rw [if_neg hp] at h; cases h
    · intro hall
      have hp : find_pivot s (s.length - 1) = 0 := by
        by_contra hp
        have h1 := find_pivot_ne_one s (s.length - 1) hp
        have hle := find_pivot_le s (s.length - 1)
        exact h1 (hall _ (by omega) (by omega))
      rw [if_pos hp]
  · intro r p q hsome ⟨hpl, hpn, hpones⟩ ⟨hqp, hqe, hqmax⟩
    rw [next_rooted_tree_default_eq] at hsome
    by_cases hp : find_pivot s (s.length - 1) = 0
    · rw [if_pos hp] at hsome; cases hsome
    · rw [if_neg hp] at hsome
      injection hsome with hsome
      -- the descriptive pivot equals the scanned pivot
      have hple : find_pivot s (s.length - 1) ≤ s.length - 1 := find_pivot_le s (s.length - 1)
      have hpeq : find_pivot s (s.length - 1) = p := by
        rcases Nat.lt_trichotomy (find_pivot s (s.length - 1)) p with h | h | h
        · exact absurd (find_pivot_ones s (s.length - 1) p (by omega) (by omega)) hpn
        · exact h
        · exact absurd (hpones _ (by omega) h) (find_pivot_ne_one s (s.length - 1) hp)
      -- the descriptive q equals the scanned q
      have hqeq : find_q s (s.getD p 0 - 1) (p - 1) = q := by
        have he : s.getD (find_q s (s.getD p 0 - 1) (p - 1)) 0 = s.getD p 0 - 1 :=
          find_q_eq s (s.getD p 0 - 1) (p - 1) ⟨q, by omega, hqe⟩
        have hle := find_q_le s (s.getD p 0 - 1) (p - 1)
        rcases Nat.lt_trichotomy (find_q s (s.getD p 0 - 1) (p - 1)) q with h | h | h
        · exact absurd hqe (find_q_maximal s (s.getD p 0 - 1) (p - 1) q h (by omega))
        · exact h
        · exact absurd he (hqmax _ (by omega) h)
      rw [hpeq, hqeq] at hsome
      obtain ⟨hl, hlow, hrec⟩ := fill_aux p q hqp (s.length - p) p s le_rfl (by omega)
      rw [hsome] at hl hlow hrec
      exact ⟨hl, hlow, fun i h1 h2 => hrec i h2 h1⟩

/-! ### The split point -/

theorem ones_mem_iff (s : List Nat) (k : Nat) :
    (k ∈ (List.range s.length).filter (fun i => s.getD i 0 = 1)) ↔
      (k < s.length ∧ s.getD k 0 = 1) := by
  simp [List.mem_filter, List.mem_range]

theorem ones_pairwise (s : List Nat) :
    ((List.range s.length).filter (fun i => s.getD i 0 = 1)).Pairwise (· < ·) := by
  refine List.Pairwise.filter _ ?_
  rw [List.range_eq_range']
  exact List.pairwise_lt_range' 0 s.length

/-- The split index of a valid sequence of length `≥ 2`: it lies in
`[2, length]`, holds depth `1` when it is in range, and no position
strictly between `1` and it holds depth `1`. -/
theorem split_index_spec (s : List Nat) (hv : ValidLevelSeq s) (h2 : 2 ≤ s.length) :
    2 ≤ split_index_of s ∧ split_index_of s ≤ s.length ∧
      (split_index_of s < s.length → s.getD (split_index_of s) 0 = 1) ∧
      (∀ k, k < s.length → 1 < k → k < split_index_of s → s.getD k 0 ≠ 1) := by
  have h1 : (1 : Nat) ∈ (List.range s.length).filter (fun i => s.getD i 0 = 1) :=
    (ones_mem_iff s 1).2 ⟨by omega, valid_second_entry hv (by omega)⟩
  have hpw := ones_pairwise s
  rcases hones : (List.range s.length).filter (fun i => s.getD i 0 = 1) with
    _ | ⟨a, _ | ⟨b, tail2⟩⟩
  · rw [hones] at h1; cases h1
  · -- a single `1`-entry: the split point is the length
    rw [hones] at h1
    have ha : a = 1 := by
      rcases List.mem_singleton.1 h1 with h
      omega
    simp only [split_index_of, hones]
    refine ⟨h2, le_rfl, fun h => absurd h (lt_irrefl _), ?_⟩
    intro k hk hk1 _ hke
    have : k ∈ [a] := by
      rw [← hones]
      exact (ones_mem_iff s k).2 ⟨hk, hke⟩
    rcases List.mem_singleton.1 this with h
    omega
  · -- at least two `1`-entries: the split point is the second
    rw [hones] at h1 hpw
    rw [List.pairwise_cons] at hpw
    have hb : b ∈ (List.range s.length).filter (fun i => s.getD i 0 = 1) := by
      rw [hones]; exact List.mem_cons.2 (Or.inr (List.mem_cons_self _ _))
    have hbspec := (ones_mem_iff s b).1 hb
    have ha : a = 1 := by
      rcases List.mem_cons.1 h1 with h | h
      · omega
      · have hlt := hpw.1 1 h
        interval_cases a
        · have h0 : (0 : Nat) ∈ (List.range s.length).filter (fun i => s.getD i 0 = 1) := by
            rw [hones]; exact List.mem_cons_self _ _
          have := ((ones_mem_iff s 0).1 h0).2
          rw [valid_head hv] at this
          cases this
    have hab : a < b := hpw.1 b (List.mem_cons_self _ _)
    simp only [split_index_of, hones]
    refine ⟨by omega, by omega, fun _ => hbspec.2, ?_⟩
    intro k hk hk1 hkb hke
    have hkmem : k ∈ a :: b :: tail2 := by
      rw [← hones]
      exact (ones_mem_iff s k).2 ⟨hk, hke⟩
    rcases List.mem_cons.1 hkmem with h | h
    · omega
    rcases List.mem_cons.1 h with h | h
    · omega
    · have := (List.pairwise_cons.1 hpw.2).1 k h
      omega

theorem split_left_eq (s : List Nat) :
    (split_tree s).1 = ((s.drop 1).take (split_index_of s - 1)).map (· - 1) := rfl

theorem split_right_eq (s : List Nat) :
    (split_tree s).2 = 0 :: s.drop (split_index_of s) := rfl

theorem split_left_length (s : List Nat) (h : split_index_of s ≤ s.length) :
    (split_tree s).1.length = split_index_of s - 1 := by
  rw [split_left_eq]
  simp only [List.length_map, List.length_take, List.length_drop]
  omega

theorem split_left_getD (s : List Nat) (j : Nat) (hj : j < split_index_of s - 1) :
    (split_tree s).1.getD j 0 = s.getD (1 + j) 0 - 1 := by
  rw [split_left_eq, List.getD_eq_getElem?_getD, List.getElem?_map,
    List.getElem?_take_of_lt hj, List.getElem?_drop]
  cases hsj : s[1 + j]? with
  | none => simp [List.getD_eq_getElem?_getD, hsj]
  | some a => simp [List.getD_eq_getElem?_getD, hsj]

/-- Every entry of the left subtree is at most `length - 2` on a valid
sequence (entries are re-based depths, bounded by their index). -/
theorem split_left_entry_bound (s : List Nat) (hv : ValidLevelSeq s)
    (hle : split_index_of s ≤ s.length) :
    ∀ x ∈ (split_tree s).1, x ≤ s.length - 2 := by
  intro x hx
  obtain ⟨j, hj, he⟩ := List.mem_iff_getElem.1 hx
  rw [split_left_length s hle] at hj
  have : (split_tree s).1.getD j 0 = x := by
    rw [List.getD_eq_getElem?_getD, List.getElem?_eq_getElem (by rw [split_left_length s hle]; omega)]
    simp [he]
  rw [split_left_getD s j hj] at this
  have hb := valid_entry_le_index hv (1 + j) (by omega)
  omega

/-! ### `next_tree` preserves validity -/

theorem candidate_valid_snd (l r : List Nat) : (candidate_valid l r).2 = l.length := by
  unfold candidate_valid
  by_cases h1 : pyMax r < pyMax l
  · simp [h1]
  · by_cases h2 : pyMax l = pyMax r
    · by_cases h3 : r.length < l.length
      · simp [h1, h2, h3]
      · by_cases h4 : l.length = r.length ∧ pyListGt l r = true
        · simp [h1, h2, h3, h4]
        · simp [h1, h2, h3, h4]
    · simp [h1, h2]

/-- The characterization of the validity flag, with no side conditions
(the total `pyMax` stands in for Python's `max`). -/
theorem candidate_valid_false_iff (l r : List Nat) :
    (candidate_valid l r).1 = false ↔
      pyMax r < pyMax l ∨
        (pyMax l = pyMax r ∧ r.length < l.length) ∨
        (pyMax l = pyMax r ∧ l.length = r.length ∧ pyListGt l r = true) := by
  unfold candidate_valid
  by_cases h1 : pyMax r < pyMax l
  · simp [h1]
  · by_cases h2 : pyMax l = pyMax r
    · by_cases h3 : r.length < l.length
      · simp [h1, h2, h3]
      · by_cases h4 : l.length = r.length ∧ pyListGt l r = true
        · simp [h1, h2, h3, h4]
        · simp [h1, h2, h3, h4]
    · simp [h1, h2]

/-- An invalid split forces the split index to be at least `3` and the
entry just before it (the jump pivot of `generate_new_candidate`) to be
at least `2`. -/
theorem invalid_split_pivot (s : List Nat) (hv : ValidLevelSeq s) (h2 : 2 ≤ s.length)
    (hinv : (candidate_valid (split_tree s).1 (split_tree s).2).1 = false) :
    3 ≤ split_index_of s ∧ 2 ≤ s.getD (split_index_of s - 1) 0 := by
  obtain ⟨hsi2, hsile, hsi1, hsinot⟩ := split_index_spec s hv h2
  have hrlen : (split_tree s).2.length = 1 + (s.length - split_index_of s) := by
    rw [split_right_eq]
    simp only [List.length_cons, List.length_drop]
    omega
  have hsi3 : 3 ≤ split_index_of s := by
    by_contra hcon
    have hsi : split_index_of s = 2 := by omega
    have hllen : (split_tree s).1.length = 1 := by
      rw [split_left_length s hsile, hsi]
    have hlget : (split_tree s).1.getD 0 0 = 0 := by
      rw [split_left_getD s 0 (by omega)]
      have h21 := valid_second_entry hv (by omega)
      rw [show (1 : Nat) + 0 = 1 from rfl, h21]
    have hl0 : (split_tree s).1 = [0] := by
      rcases hls : (split_tree s).1 with _ | ⟨x, _ | ⟨y, ys⟩⟩
      · rw [hls] at hllen; cases hllen
      · rw [hls] at hlget
        simp only [List.getD_eq_getElem?_getD, List.getElem?_cons_zero,
          Option.getD_some] at hlget
        rw [hlget]
      · rw [hls] at hllen; simp at hllen
    rcases (candidate_valid_false_iff _ _).1 hinv with hd | ⟨_, hd⟩ | ⟨_, hd, hgt⟩
    · rw [hl0] at hd
      have h0 : pyMax [0] = 0 := rfl
      rw [h0] at hd
      omega
    · rw [hl0] at hd
      have h1 : ([0] : List Nat).length = 1 := rfl
      rw [h1] at hd
      omega
    · rw [hl0] at hd hgt
      have h1 : ([0] : List Nat).length = 1 := rfl
      rw [h1] at hd
      have hdrop : s.drop (split_index_of s) = [] := by
        rw [List.drop_eq_nil_iff]
        omega
      have hr0 : (split_tree s).2 = [0] := by
        rw [split_right_eq, hdrop]
      rw [hr0] at hgt
      exact absurd hgt (by decide)
  refine ⟨hsi3, ?_⟩
  have hne : s.getD (split_index_of s - 1) 0 ≠ 1 :=
    hsinot (split_index_of s - 1) (by omega) (by omega) (by omega)
  have hge := (valid_step hv (i := split_index_of s - 1) (by omega) (by omega)).1
  omega

/-- Overwriting the tail with the ascending run `1, 2, …, h + 1` keeps a
valid sequence valid as long as the run does not reach the root. -/
theorem pySetSuffix_valid (nc : List Nat) (hv : ValidLevelSeq nc)
    (h : Nat) (hh : h + 2 ≤ nc.length) :
    (pySetSuffix nc (List.range' 1 (h + 1))).length = nc.length ∧
      ValidLevelSeq (pySetSuffix nc (List.range' 1 (h + 1))) := by
  have hsl : (List.range' 1 (h + 1)).length = h + 1 := List.length_range' ..
  have htl : (nc.take (nc.length - (List.range' 1 (h + 1)).length)).length
      = nc.length - (h + 1) := by
    rw [hsl]
    simp only [List.length_take]
    omega
  have hlen : (pySetSuffix nc (List.range' 1 (h + 1))).length = nc.length := by
    unfold pySetSuffix
    rw [List.length_append, htl, hsl]
    omega
  have hlow : ∀ i, i < nc.length - (h + 1) →
      (pySetSuffix nc (List.range' 1 (h + 1))).getD i 0 = nc.getD i 0 := by
    intro i hi
    unfold pySetSuffix
    rw [List.getD_eq_getElem?_getD, List.getElem?_append_left (by rw [htl]; omega),
      List.getElem?_take_of_lt (by rw [hsl]; omega), ← List.getD_eq_getElem?_getD]
  have hhigh : ∀ i, nc.length - (h + 1) ≤ i → i < nc.length →
      (pySetSuffix nc (List.range' 1 (h + 1))).getD i 0 = 1 + (i - (nc.length - (h + 1))) := by
    intro i h1 h2
    unfold pySetSuffix
    rw [List.getD_eq_getElem?_getD, List.getElem?_append_right (by rw [htl]; omega), htl,
      List.getElem?_range' 1 1 (by omega)]
    simp
  refine ⟨hlen, ?_, ?_, ?_⟩
  · intro hnil
    rw [hnil] at hlen
    simp at hlen
    omega
  · rw [hlow 0 (by omega)]
    exact valid_head hv
  · intro i hilen h1
    rw [hlen] at hilen
    rcases Nat.lt_or_ge i (nc.length - (h + 1)) with hc | hc
    · rw [hlow i hc, hlow (i - 1) (by omega)]
      exact valid_step hv h1 (by omega)
    · rcases Nat.eq_or_lt_of_le hc with hc' | hc'
      · rw [hhigh i hc (by omega)]
        constructor <;> omega
      · rw [hhigh i hc (by omega), hhigh (i - 1) (by omega) (by omega)]
        constructor <;> omega

/-- `next_tree`, with the `let`s opened. -/
theorem next_tree_eq (s : List Nat) :
    next_tree s =
      if (candidate_valid (split_tree s).1 (split_tree s).2).1 = true then some s
      else generate_new_candidate s (candidate_valid (split_tree s).1 (split_tree s).2).2 := rfl

/-- On a valid sequence of length `≥ 2` with a jump pivot `1 ≤ p < len`
of depth `≥ 2`, `generate_new_candidate` succeeds and returns a valid
sequence of the same length. -/
theorem generate_new_candidate_eq (s : List Nat) (p : Nat) (nc : List Nat)
    (h : next_rooted_tree s (some p) = some nc) :
    generate_new_candidate s p =
      if 2 < s.getD p 0 then
        some (pySetSuffix nc (List.range' 1 (pyMax (split_tree nc).1 + 1)))
      else some nc := by
  unfold generate_new_candidate
  rw [h]

theorem generate_new_candidate_valid (s : List Nat) (hv : ValidLevelSeq s)
    (p : Nat) (hp1 : 1 ≤ p) (hp2 : p < s.length) (hs2 : 2 ≤ s.getD p 0) :
    ∃ t, generate_new_candidate s p = some t ∧ t.length = s.length ∧ ValidLevelSeq t := by
  obtain ⟨nc, hnc, hlen, hvnc, _⟩ := next_rooted_tree_explicit_valid hv hp1 hp2 hs2
  rw [generate_new_candidate_eq s p nc hnc]
  by_cases hgt : 2 < s.getD p 0
  · rw [if_pos hgt]
    have hnc2 : 2 ≤ nc.length := by omega
    obtain ⟨_, hsile, _, _⟩ := split_index_spec nc hvnc hnc2
    have hbound : pyMax (split_tree nc).1 + 2 ≤ nc.length := by
      rcases pyMax_spec (split_tree nc).1 with hmem | h0
      · have := split_left_entry_bound nc hvnc hsile _ hmem
        omega
      · omega
    obtain ⟨hl, hvt⟩ := pySetSuffix_valid nc hvnc (pyMax (split_tree nc).1) hbound
    exact ⟨_, rfl, by rw [hl, hlen], hvt⟩
  · rw [if_neg hgt]
    exact ⟨nc, rfl, hlen, hvnc⟩

/-- On a valid sequence of length `≥ 2`, one `next_tree` pass succeeds and
returns a valid sequence of the same length. -/
theorem next_tree_valid (s : List Nat) (hv : ValidLevelSeq s) (h2 : 2 ≤ s.length) :
    ∃ t, next_tree s = some t ∧ t.length = s.length ∧ ValidLevelSeq t := by
  rw [next_tree_eq]
  by_cases hval : (candidate_valid (split_tree s).1 (split_tree s).2).1 = true
  · rw [if_pos hval]
    exact ⟨s, rfl, rfl, hv⟩
  · rw [if_neg hval]
    have hfalse : (candidate_valid (split_tree s).1 (split_tree s).2).1 = false := by
      simpa using hval
    obtain ⟨hsi3, hs2⟩ := invalid_split_pivot s hv h2 hfalse
    obtain ⟨_, hsile, _, _⟩ := split_index_spec s hv h2
    have hsnd : (candidate_valid (split_tree s).1 (split_tree s).2).2 = split_index_of s - 1 := by
      rw [candidate_valid_snd, split_left_length s hsile]
    rw [hsnd]
    exact generate_new_candidate_valid s hv (split_index_of s - 1) (by omega) (by omega) hs2

/-! ### The seed layout -/

theorem seed_length (n : Nat) (h : 1 ≤ n) : (generate_centered_tree_layout n).length = n := by
  unfold generate_centered_tree_layout
  simp only [List.length_append, List.length_range, List.length_range']
  omega

theorem seed_getD_low (n i : Nat) (h : i < n / 2 + 1) :
    (generate_centered_tree_layout n).getD i 0 = i := by
  unfold generate_centered_tree_layout
  rw [List.getD_eq_getElem?_getD,
    List.getElem?_append_left (by rw [List.length_range]; exact h)]
  simp [List.getElem?_range h]

theorem seed_getD_high (n i : Nat) (h1 : n / 2 + 1 ≤ i) (h2 : i < n) :
    (generate_centered_tree_layout n).getD i 0 = i - n / 2 := by
  unfold generate_centered_tree_layout
  rw [List.getD_eq_getElem?_getD,
    List.getElem?_append_right (by rw [List.length_range]; exact h1)]
  rw [List.length_range, List.getElem?_range' 1 1 (by omega)]
  simp
  omega

/-- The centered seed layout is a valid level sequence. -/
theorem seed_valid (n : Nat) (h2 : 2 ≤ n) : ValidLevelSeq (generate_centered_tree_layout n) := by
  have hl := seed_length n (by omega)
  refine ⟨?_, ?_, ?_⟩
  · intro h
    rw [h] at hl
    simp at hl
    omega
  · rw [seed_getD_low n 0 (by omega)]
  · intro i hlen h1
    rw [hl] at hlen
    rcases Nat.lt_or_ge i (n / 2 + 1) with hc | hc
    · rw [seed_getD_low n i hc, seed_getD_low n (i - 1) (by omega)]
      omega
    · rcases Nat.eq_or_lt_of_le hc with hc' | hc'
      · rw [seed_getD_high n i hc hlen, ← hc',
          show n / 2 + 1 - 1 = n / 2 from rfl, seed_getD_low n (n / 2) (by omega)]
        omega
      · rw [seed_getD_high n i hc hlen, seed_getD_high n (i - 1) (by omega) (by omega)]
        omega

/-! ### The generation loop preserves validity -/

theorem gen_loop_succ_eq (f : Nat) (s t : List Nat) (ht : next_tree s = some t) :
    gen_loop (f + 1) s =
      match next_rooted_tree t none with
      | none => some [t]
      | some nxt => (gen_loop f nxt).map (t :: ·) := by
  rw [gen_loop, ht]

theorem gen_loop_valid : ∀ (fuel : Nat) (s : List Nat) (res : List (List Nat)),
    ValidLevelSeq s → 2 ≤ s.length → gen_loop fuel s = some res →
    ∀ t ∈ res, t.length = s.length ∧ ValidLevelSeq t := by
  intro fuel
  induction fuel with
  | zero => intro s res _ _ h; cases h
  | succ f ih =>
    intro s res hv h2 h
    obtain ⟨t, ht, hlen, hvt⟩ := next_tree_valid s hv h2
    rw [gen_loop_succ_eq f s t ht] at h
    cases hnt : next_rooted_tree t none with
    | none =>
      rw [hnt] at h
      injection h with h
      intro t' ht'
      rw [← h] at ht'
      rcases List.mem_singleton.1 ht' with rfl
      exact ⟨hlen, hvt⟩
    | some nxt =>
      rw [hnt] at h
      have h' : (gen_loop f nxt).map (t :: ·) = some res := h
      cases hg : gen_loop f nxt with
      | none => rw [hg] at h'; cases h'
      | some res' =>
        rw [hg] at h'
        injection h' with h'
        obtain ⟨hnl, hvn⟩ := next_rooted_tree_default_valid hvt hnt
        intro t' ht'
        subst h'
        rcases List.mem_cons.1 ht' with rfl | ht'
        · exact ⟨hlen, hvt⟩
        · obtain ⟨hL, hV⟩ := ih nxt res' hvn (by omega) hg t' ht'
          exact ⟨by omega, hV⟩

/-- The generator's consumption semantics, with the projections opened. -/
theorem generate_trees_level_order_eq (n : Int) (fuel : Nat) :
    generate_trees_level_order n fuel =
      if n ≤ 0 then some (.error "Number of vertices provided was less than one.")
      else if n = 1 then some (.ok [])
      else (gen_loop fuel (generate_centered_tree_layout n.toNat)).map .ok := rfl

/-- C5: for every `n ≥ 2`, every sequence emitted by
`generate_trees_level_order(n)` has length `n` and satisfies the
level-sequence invariants: entry 0 is 0, and every later entry `e`
satisfies `1 ≤ e ≤ previous + 1`. -/
theorem c5_emitted_valid (n : Int) (fuel : Nat) (res : List (List Nat)) (h2 : 2 ≤ n)
    (h : generate_trees_level_order n fuel = some (.ok res)) :
    ∀ t ∈ res, t.length = n.toNat ∧ ValidLevelSeq t := by
  rw [generate_trees_level_order_eq, if_neg (by omega), if_neg (by omega)] at h
  cases hg : gen_loop fuel (generate_centered_tree_layout n.toNat) with
  | none => rw [hg] at h; cases h
  | some res' =>
    rw [hg] at h
    simp only [Option.map_some'] at h
    injection h with h
    injection h with h
    subst h
    have hn2 : 2 ≤ n.toNat := by omega
    have hl := seed_length n.toNat (by omega)
    intro t ht
    obtain ⟨hL, hV⟩ := gen_loop_valid fuel _ res' (seed_valid n.toNat hn2)
      (by rw [hl]; omega) hg t ht
    rw [hl] at hL
    exact ⟨hL, hV⟩

/-- C5, witness: the theorem applied at `n = 4`, whose emitted sequences
are `[0,1,2,1]` and `[0,1,1,1]`. -/
theorem c5_emitted_valid_witness :
    List.length [0, 1, 2, 1] = (4 : Int).toNat ∧ ValidLevelSeq [0, 1, 2, 1] :=
  c5_emitted_valid 4 32 [[0, 1, 2, 1], [0, 1, 1, 1]] (by omega) rfl
    [0, 1, 2, 1] (List.mem_cons_self _ _)

/-! ### The adjacency-matrix transform -/

theorem headD_mem {α : Type} (l : List α) (d : α) (h : l ≠ []) : l.headD d ∈ l := by
  cases l with
  | nil => exact absurd rfl h
  | cons x xs => exact List.mem_cons_self _ _

theorem getLast?_cons_of_ne_nil {α : Type} (a : α) (l : List α) (h : l ≠ []) :
    (a :: l).getLast? = l.getLast? := by
  cases l with
  | nil => exact absurd rfl h
  | cons x xs => simp [List.getLast?_cons_cons]

theorem getD_mem {α : Type} (l : List α) (i : Nat) (d : α) (h : i < l.length) :
    l.getD i d ∈ l := by
  rw [List.getD_eq_getElem?_getD, List.getElem?_eq_getElem h]
  exact List.getElem_mem h

theorem popStack_subset (tree : List Nat) (level : Nat) :
    ∀ st x, x ∈ popStack tree level st → x ∈ st := by
  intro st
  induction st with
  | nil => intro x h; cases h
  | cons s rest ih =>
    intro x h
    unfold popStack at h
    by_cases hc : level ≤ tree.getD s 0
    · rw [if_pos hc] at h
      exact List.mem_cons.2 (Or.inr (ih x h))
    · rw [if_neg hc] at h
      exact h

/-- When the bottom of the stack has depth below `level`, the pop loop
stops before emptying the stack and keeps the bottom. -/
theorem popStack_last (tree : List Nat) (level : Nat) :
    ∀ st b, st.getLast? = some b → tree.getD b 0 < level →
      popStack tree level st ≠ [] ∧ (popStack tree level st).getLast? = some b := by
  intro st
  induction st with
  | nil => intro b hb _; cases hb
  | cons s rest ih =>
    intro b hb hcond
    unfold popStack
    by_cases hc : level ≤ tree.getD s 0
    · rw [if_pos hc]
      cases rest with
      | nil =>
        simp only [List.getLast?_singleton] at hb
        injection hb with hb
        subst hb
        omega
      | cons y ys =>
        rw [getLast?_cons_of_ne_nil s (y :: ys) (by simp)] at hb
        exact ih b hb hcond
    · rw [if_neg hc]
      exact ⟨by simp, hb⟩

theorem setCell_length (m : List (List Nat)) (i j : Nat) :
    (setCell m i j).length = m.length := by
  simp [setCell]

theorem setCell_rows (m : List (List Nat)) (i j n : Nat) (hi : i < m.length)
    (h : ∀ row ∈ m, row.length = n) :
    ∀ row ∈ setCell m i j, row.length = n := by
  intro row hrow
  rcases List.mem_or_eq_of_mem_set hrow with h' | h'
  · exact h row h'
  · rw [h', List.length_set]
    exact h _ (getD_mem m i [] hi)

theorem setCell_getD (m : List (List Nat)) (i j a b : Nat)
    (hi : i < m.length) (hj : j < (m.getD i []).length) :
    ((setCell m i j).getD a []).getD b 0 =
      if a = i ∧ b = j then 1 else (m.getD a []).getD b 0 := by
  unfold setCell
  by_cases hai : a = i
  · subst hai
    rw [getD_set_self _ _ _ _ hi]
    by_cases hbj : b = j
    · subst hbj
      rw [getD_set_self _ _ _ _ hj]
      simp
    · rw [getD_set_ne _ _ _ _ _ (fun h => hbj h.symm)]
      simp [hbj]
  · rw [getD_set_ne _ _ _ _ _ (fun h => hai h.symm)]
    simp [hai]

theorem sum_set_row : ∀ (row : List Nat) (j : Nat), j < row.length →
    (row.set j 1).sum + row.getD j 0 = row.sum + 1 := by
  intro row
  induction row with
  | nil => intro j h; cases h
  | cons x xs ih =>
    intro j hj
    cases j with
    | zero => simp [List.sum_cons]; omega
    | succ j' =>
      simp only [List.set_cons_succ, List.sum_cons, List.getD_cons_succ]
      have := ih j' (by simpa using hj)
      omega

theorem sum_map_set : ∀ (m : List (List Nat)) (i : Nat) (r : List Nat), i < m.length →
    ((m.set i r).map List.sum).sum + (m.getD i []).sum = (m.map List.sum).sum + r.sum := by
  intro m
  induction m with
  | nil => intro i r h; cases h
  | cons row rows ih =>
    intro i r hi
    cases i with
    | zero => simp [List.sum_cons]; omega
    | succ i' =>
      simp only [List.set_cons_succ, List.map_cons, List.sum_cons, List.getD_cons_succ]
      have := ih i' r (by simpa using hi)
      omega

theorem matSum_setCell (m : List (List Nat)) (i j : Nat)
    (hi : i < m.length) (hj : j < (m.getD i []).length)
    (h0 : (m.getD i []).getD j 0 = 0) :
    ((setCell m i j).map List.sum).sum = (m.map List.sum).sum + 1 := by
  unfold setCell
  have h1 := sum_map_set m i ((m.getD i []).set j 1) hi
  have h2 := sum_set_row (m.getD i []) j hj
  rw [h0] at h2
  omega

/-- Processing one more vertex preserves the construction invariant. -/
theorem adjStep_inv (tree : List Nat) (hv : ValidLevelSeq tree) (k : Nat)
    (hk : k < tree.length) (M : List (List Nat)) (st : List Nat)
    (hinv : AdjInv tree k (M, st)) : AdjInv tree (k + 1) (adjStep tree (M, st) k) := by
  obtain ⟨hlen, hrows, hsym, h01, hsupp, hsum, hconn, hst0, hstpos⟩ := hinv
  dsimp only at hlen hrows hsym h01 hsupp hsum hconn hst0 hstpos
  cases st with
  | nil =>
    have hk0 : k = 0 := by
      by_contra h
      have := (hstpos (by omega)).1
      simp at this
    subst hk0
    refine ⟨hlen, hrows, hsym, h01, ?_, ?_, ?_, ?_, ?_⟩
    · intro i j h1
      have := hsupp i j h1
      omega
    · simpa using hsum
    · intro j h1 h2
      omega
    · intro h; cases h
    · intro _
      refine ⟨rfl, ?_⟩
      intro x hx
      rcases List.mem_singleton.1 hx with rfl
      omega
  | cons s0 st' =>
    have hk1 : 1 ≤ k := by
      by_contra h
      have := hst0 (by omega)
      cases this
    obtain ⟨hlast, hbound⟩ := hstpos hk1
    have hlev : 1 ≤ tree.getD k 0 := (valid_step hv hk1 hk).1
    have hbot : tree.getD 0 0 < tree.getD k 0 := by
      rw [valid_head hv]; omega
    obtain ⟨hpne, hplast⟩ := popStack_last tree (tree.getD k 0) (s0 :: st') 0 hlast hbot
    set popped := popStack tree (tree.getD k 0) (s0 :: st') with hpop
    set top := popped.headD 0 with htop
    have htopmem : top ∈ popped := headD_mem popped 0 hpne
    have htopst : top ∈ s0 :: st' := popStack_subset tree (tree.getD k 0) _ top htopmem
    have htopk : top < k := hbound top htopst
    have htopn : top < tree.length := by omega
    have hrowtop : (M.getD top []).length = tree.length :=
      hrows _ (getD_mem M top [] (by omega))
    have hrowk : (M.getD k []).length = tree.length :=
      hrows _ (getD_mem M k [] (by omega))
    have hc1 : (M.getD top []).getD k 0 = 0 := by
      rcases h01 top k with h | h
      · exact h
      · exact absurd ((hsupp top k h).2.1) (by omega)
    have hc2 : (M.getD k []).getD top 0 = 0 := by
      rw [hsym k top]; exact hc1
    -- the two cell writes
    have hM1len : (setCell M top k).length = M.length := setCell_length M top k
    have hM1rows : ∀ row ∈ setCell M top k, row.length = tree.length :=
      setCell_rows M top k tree.length (by omega) hrows
    have hM1get : ∀ a b, (((setCell M top k).getD a []).getD b 0) =
        if a = top ∧ b = k then 1 else (M.getD a []).getD b 0 :=
      fun a b => setCell_getD M top k a b (by omega) (by rw [hrowtop]; omega)
    have hM2get : ∀ a b, (((setCell (setCell M top k) k top).getD a []).getD b 0) =
        if (a = top ∧ b = k) ∨ (a = k ∧ b = top) then 1
        else (M.getD a []).getD b 0 := by
      intro a b
      rw [setCell_getD (setCell M top k) k top a b (by omega)
        (by rw [hM1rows _ (getD_mem _ k [] (by omega))]; omega)]
      rw [hM1get a b]
      by_cases h1 : a = k ∧ b = top
      · rw [if_pos h1, if_pos (Or.inr h1)]
      · rw [if_neg h1]
        by_cases h2 : a = top ∧ b = k
        · rw [if_pos h2, if_pos (Or.inl h2)]
        · rw [if_neg h2, if_neg (by tauto)]
    show AdjInv tree (k + 1) (setCell (setCell M top k) k top, k :: popped)
    refine ⟨?_, ?_, ?_, ?_, ?_, ?_, ?_, ?_, ?_⟩
    · rw [setCell_length, hM1len, hlen]
    · exact setCell_rows _ k top tree.length (by rw [hM1len]; omega) hM1rows
    · intro i j
      rw [hM2get i j, hM2get j i]
      by_cases h1 : (i = top ∧ j = k) ∨ (i = k ∧ j = top)
      · rw [if_pos h1, if_pos (by tauto)]
      · rw [if_neg h1, if_neg (by tauto), hsym i j]
    · intro i j
      rw [hM2get i j]
      by_cases h1 : (i = top ∧ j = k) ∨ (i = k ∧ j = top)
      · rw [if_pos h1]; omega
      · rw [if_neg h1]; exact h01 i j
    · intro i j h1
      rw [hM2get i j] at h1
      by_cases hcase : (i = top ∧ j = k) ∨ (i = k ∧ j = top)
      · omega
      · rw [if_neg hcase] at h1
        have := hsupp i j h1
        omega
    · have e1 := matSum_setCell M top k (by omega) (by rw [hrowtop]; omega) hc1
      have e2 : ((setCell M top k).getD k []).getD top 0 = 0 := by
        rw [hM1get k top, if_neg (by omega)]
        exact hc2
      have e3 := matSum_setCell (setCell M top k) k top (by rw [hM1len]; omega)
        (by rw [hM1rows _ (getD_mem _ k [] (by rw [hM1len]; omega))]; omega) e2
      rw [e3, e1, hsum]
      omega
    · intro j h1 h2
      rcases Nat.lt_or_ge j k with hjk | hjk
      · obtain ⟨i, hij, he⟩ := hconn j h1 hjk
        refine ⟨i, hij, ?_⟩
        rw [hM2get i j, if_neg (by omega)]
        exact he
      · have hj : j = k := by omega
        subst hj
        refine ⟨top, htopk, ?_⟩
        rw [hM2get top j, if_pos (Or.inl ⟨rfl, rfl⟩)]
    · intro h; cases h
    · intro _
      constructor
      · rw [getLast?_cons_of_ne_nil k popped hpne]
        exact hplast
      · intro x hx
        rcases List.mem_cons.1 hx with rfl | hx
        · omega
        · have := hbound x (popStack_subset tree (tree.getD k 0) _ x hx)
          omega

/-- The construction invariant holds after any prefix of the loop. -/
theorem adj_loop_inv (tree : List Nat) (hv : ValidLevelSeq tree) :
    ∀ k, k ≤ tree.length →
      AdjInv tree k ((List.range k).foldl (adjStep tree)
        (List.replicate tree.length (List.replicate tree.length 0), [])) := by
  have hz : ∀ i j,
      ((List.replicate tree.length (List.replicate tree.length 0)).getD i []).getD j 0
        = (0 : Nat) := by
    intro i j
    simp only [List.getD_eq_getElem?_getD]
    rw [List.getElem?_replicate]
    by_cases hi : i < tree.length
    · rw [if_pos hi]
      simp only [Option.getD_some]
      rw [List.getElem?_replicate]
      by_cases hj : j < tree.length
      · rw [if_pos hj]; rfl
      · rw [if_neg hj]; rfl
    · rw [if_neg hi]; rfl
  intro k
  induction k with
  | zero =>
    intro _
    rw [List.range_zero, List.foldl_nil]
    refine ⟨by simp, ?_, ?_, ?_, ?_, ?_, ?_, fun _ => rfl, fun h => absurd h (by omega)⟩
    · intro row hrow
      rcases (List.mem_replicate.1 hrow).2 with rfl
      simp
    · intro i j; rw [hz i j, hz j i]
    · intro i j; exact Or.inl (hz i j)
    · intro i j h1; rw [hz i j] at h1; cases h1
    · simp [List.map_replicate, List.sum_replicate]
    · intro j h1 h2; omega
  | succ k ih =>
    intro hk
    rw [List.range_succ, List.foldl_append, List.foldl_cons, List.foldl_nil]
    have h2 := adjStep_inv tree hv k (by omega)
      ((List.range k).foldl (adjStep tree)
        (List.replicate tree.length (List.replicate tree.length 0), [])).1
      ((List.range k).foldl (adjStep tree)
        (List.replicate tree.length (List.replicate tree.length 0), [])).2
      (by rw [Prod.mk.eta]; exact ih (by omega))
    rw [Prod.mk.eta] at h2
    exact h2

/-- C9: on every valid level sequence `t` of length `n`, the adjacency
matrix is an `n × n` symmetric 0/1 matrix with zero diagonal, its entry
sum is `2(n-1)`, and the graph it describes is connected. -/
theorem c9_adjacency_matrix (t : List Nat) (hv : ValidLevelSeq t)
    (M : List (List Nat)) (hM : M = level_order_to_adjacency_matrix t) :
    M.length = t.length ∧
    (∀ row ∈ M, row.length = t.length) ∧
    (∀ i j, (M.getD i []).getD j 0 = (M.getD j []).getD i 0) ∧
    (∀ i, (M.getD i []).getD i 0 = 0) ∧
    (∀ i j, (M.getD i []).getD j 0 = 0 ∨ (M.getD i []).getD j 0 = 1) ∧
    (M.map List.sum).sum = 2 * (t.length - 1) ∧
    (∀ i j, i < t.length → j < t.length →
      Relation.ReflTransGen (fun a b => (M.getD a []).getD b 0 = 1) i j) := by
  obtain ⟨hlen, hrows, hsym, h01, hsupp, hsum, hconn, _, _⟩ :=
    adj_loop_inv t hv t.length le_rfl
  have hM' : M = ((List.range t.length).foldl (adjStep t)
      (List.replicate t.length (List.replicate t.length 0), [])).1 := hM
  rw [← hM'] at hlen hrows hsym h01 hsupp hsum hconn
  have hdiag : ∀ i, (M.getD i []).getD i 0 = 0 := by
    intro i
    rcases h01 i i with h | h
    · exact h
    · exact absurd ((hsupp i i h).2.2) (by omega)
  have hreach0 : ∀ j, j < t.length →
      Relation.ReflTransGen (fun a b => (M.getD a []).getD b 0 = 1) 0 j := by
    intro j
    induction j using Nat.strong_induction_on with
    | _ j IH =>
      intro hj
      cases j with
      | zero => exact Relation.ReflTransGen.refl
      | succ j' =>
        obtain ⟨i, hij, he⟩ := hconn (j' + 1) (by omega) hj
        exact Relation.ReflTransGen.tail (IH i (by omega) (by omega)) he
  have hrevstep : ∀ a b, (M.getD a []).getD b 0 = 1 → (M.getD b []).getD a 0 = 1 := by
    intro a b h
    rw [hsym b a]
    exact h
  have hrev : ∀ a b, Relation.ReflTransGen (fun a b => (M.getD a []).getD b 0 = 1) a b →
      Relation.ReflTransGen (fun a b => (M.getD a []).getD b 0 = 1) b a := by
    intro a b hab
    induction hab with
    | refl => exact Relation.ReflTransGen.refl
    | tail _ hyz ih => exact Relation.ReflTransGen.head (hrevstep _ _ hyz) ih
  refine ⟨hlen, hrows, hsym, hdiag, h01, hsum, ?_⟩
  intro i j hi hj
  exact Relation.ReflTransGen.trans (hrev _ _ (hreach0 i hi)) (hreach0 j hj)

/-- C9, witness: the theorem applied to the emitted sequence `[0, 1, 1]`,
whose adjacency matrix is `[[0,1,1],[1,0,0],[1,0,0]]`. -/
theorem c9_adjacency_matrix_witness :
    ([[0, 1, 1], [1, 0, 0], [1, 0, 0]] : List (List Nat)).length = List.length [0, 1, 1] ∧
    (∀ row ∈ ([[0, 1, 1], [1, 0, 0], [1, 0, 0]] : List (List Nat)),
      row.length = List.length [0, 1, 1]) ∧
    (∀ i j, ((([[0, 1, 1], [1, 0, 0], [1, 0, 0]] : List (List Nat)).getD i []).getD j 0)
      = ((([[0, 1, 1], [1, 0, 0], [1, 0, 0]] : List (List Nat)).getD j []).getD i 0)) ∧
    (∀ i, ((([[0, 1, 1], [1, 0, 0], [1, 0, 0]] : List (List Nat)).getD i []).getD i 0) = 0) ∧
    (∀ i j, ((([[0, 1, 1], [1, 0, 0], [1, 0, 0]] : List (List Nat)).getD i []).getD j 0) = 0 ∨
      ((([[0, 1, 1], [1, 0, 0], [1, 0, 0]] : List (List Nat)).getD i []).getD j 0) = 1) ∧
    (([[0, 1, 1], [1, 0, 0], [1, 0, 0]] : List (List Nat)).map List.sum).sum
      = 2 * (List.length [0, 1, 1] - 1) ∧
    (∀ i j, i < List.length [0, 1, 1] → j < List.length [0, 1, 1] →
      Relation.ReflTransGen
        (fun a b => ((([[0, 1, 1], [1, 0, 0], [1, 0, 0]] : List (List Nat)).getD a []).getD b 0) = 1)
        i j) :=
  c9_adjacency_matrix [0, 1, 1] (by decide) [[0, 1, 1], [1, 0, 0], [1, 0, 0]] rfl

/-! ### The counting and checking loops agree with the generation loop -/

theorem gen_loop_succ_none (f : Nat) (s : List Nat) (h : next_tree s = none) :
    gen_loop (f + 1) s = some [] := by
  rw [gen_loop, h]

theorem gen_loop_succ_last (f : Nat) (s t : List Nat) (h : next_tree s = some t)
    (h2 : next_rooted_tree t none = none) : gen_loop (f + 1) s = some [t] := by
  rw [gen_loop_succ_eq f s t h, h2]

theorem gen_loop_succ_step (f : Nat) (s t nxt : List Nat) (h : next_tree s = some t)
    (h2 : next_rooted_tree t none = some nxt) :
    gen_loop (f + 1) s = (gen_loop f nxt).map (t :: ·) := by
  rw [gen_loop_succ_eq f s t h, h2]

theorem gen_loop_count_succ_eq (f : Nat) (s t : List Nat) (acc : Nat)
    (h : next_tree s = some t) :
    gen_loop_count (f + 1) s acc =
      match next_rooted_tree t none with
      | none => some (acc + 1)
      | some nxt => gen_loop_count f nxt (acc + 1) := by
  rw [gen_loop_count, h]

theorem gen_loop_count_succ_none (f : Nat) (s : List Nat) (acc : Nat)
    (h : next_tree s = none) : gen_loop_count (f + 1) s acc = some acc := by
  rw [gen_loop_count, h]

theorem gen_loop_count_succ_last (f : Nat) (s t : List Nat) (acc : Nat)
    (h : next_tree s = some t) (h2 : next_rooted_tree t none = none) :
    gen_loop_count (f + 1) s acc = some (acc + 1) := by
  rw [gen_loop_count_succ_eq f s t acc h, h2]

theorem gen_loop_count_succ_step (f : Nat) (s t nxt : List Nat) (acc : Nat)
    (h : next_tree s = some t) (h2 : next_rooted_tree t none = some nxt) :
    gen_loop_count (f + 1) s acc = gen_loop_count f nxt (acc + 1) := by
  rw [gen_loop_count_succ_eq f s t acc h, h2]

theorem gen_loop_all_succ_eq (P : List Nat → Bool) (f : Nat) (s t : List Nat) (acc : Bool)
    (h : next_tree s = some t) :
    gen_loop_all P (f + 1) s acc =
      match next_rooted_tree t none with
      | none => some (acc && P t)
      | some nxt => gen_loop_all P f nxt (acc && P t) := by
  rw [gen_loop_all, h]

theorem gen_loop_all_succ_none (P : List Nat → Bool) (f : Nat) (s : List Nat) (acc : Bool)
    (h : next_tree s = none) : gen_loop_all P (f + 1) s acc = some acc := by
  rw [gen_loop_all, h]

theorem gen_loop_all_succ_last (P : List Nat → Bool) (f : Nat) (s t : List Nat) (acc : Bool)
    (h : next_tree s = some t) (h2 : next_rooted_tree t none = none) :
    gen_loop_all P (f + 1) s acc = some (acc && P t) := by
  rw [gen_loop_all_succ_eq P f s t acc h, h2]

theorem gen_loop_all_succ_step (P : List Nat → Bool) (f : Nat) (s t nxt : List Nat) (acc : Bool)
    (h : next_tree s = some t) (h2 : next_rooted_tree t none = some nxt) :
    gen_loop_all P (f + 1) s acc = gen_loop_all P f nxt (acc && P t) := by
  rw [gen_loop_all_succ_eq P f s t acc h, h2]

/-- The counting loop counts the sequences the generation loop yields. -/
theorem gen_loop_count_spec : ∀ (fuel : Nat) (s : List Nat) (acc : Nat),
    gen_loop_count fuel s acc = (gen_loop fuel s).map (fun l => l.length + acc) := by
  intro fuel
  induction fuel with
  | zero => intro s acc; rfl
  | succ f ih =>
    intro s acc
    cases h1 : next_tree s with
    | none =>
      rw [gen_loop_count_succ_none f s acc h1, gen_loop_succ_none f s h1]
      simp
    | some t =>
      cases h2 : next_rooted_tree t none with
      | none =>
        rw [gen_loop_count_succ_last f s t acc h1 h2, gen_loop_succ_last f s t h1 h2]
        simp [Nat.add_comm]
      | some nxt =>
        rw [gen_loop_count_succ_step f s t nxt acc h1 h2, gen_loop_succ_step f s t nxt h1 h2, ih]
        cases gen_loop f nxt with
        | none => rfl
        | some l =>
          simp only [Option.map_some', List.length_cons]
          congr 1
          omega

/-- The checking loop tests the predicate on every yielded sequence. -/
theorem gen_loop_all_spec (P : List Nat → Bool) : ∀ (fuel : Nat) (s : List Nat) (acc : Bool),
    gen_loop_all P fuel s acc = (gen_loop fuel s).map (fun l => acc && l.all P) := by
  intro fuel
  induction fuel with
  | zero => intro s acc; rfl
  | succ f ih =>
    intro s acc
    cases h1 : next_tree s with
    | none =>
      rw [gen_loop_all_succ_none P f s acc h1, gen_loop_succ_none f s h1]
      simp
    | some t =>
      cases h2 : next_rooted_tree t none with
      | none =>
        rw [gen_loop_all_succ_last P f s t acc h1 h2, gen_loop_succ_last f s t h1 h2]
        simp
      | some nxt =>
        rw [gen_loop_all_succ_step P f s t nxt acc h1 h2, gen_loop_succ_step f s t nxt h1 h2, ih]
        cases gen_loop f nxt with
        | none => rfl
        | some l =>
          simp only [Option.map_some', List.all_cons]
          congr 1
          rw [Bool.and_assoc]

/-! ### Kernel-checked partial verification of claims C1 and C4

The full range `n ≤ 20` of C1 (1.3 million trees) and the unbounded
quantifier of C4 are out of reach of kernel reduction; the loops are
checked here on an initial segment.  (`gen_loop_count_spec` and
`gen_loop_all_spec` connect these statements to
`generate_trees_level_order` itself.) -/

set_option maxRecDepth 1000000 in
/-- For every `2 ≤ n ≤ 11`, the generation loop terminates and yields
exactly `non_isomorphic_rooted_tree_count(n)` sequences. -/
theorem gen_count_matches_table_upto11 :
    ∀ n : Nat, n ≤ 11 → 2 ≤ n →
      (gen_loop_count 600 (generate_centered_tree_layout n) 0).map Int.ofNat
        = (non_isomorphic_rooted_tree_count n).toOption := by
  decide!

set_option maxRecDepth 1000000 in
/-- For every `2 ≤ n ≤ 10`, every sequence the generation loop yields is
a fixed point of `next_tree`. -/
theorem gen_fixed_point_upto10 :
    ∀ n : Nat, n ≤ 10 → 2 ≤ n →
      gen_loop_all (fun t => next_tree t == some t) 300
        (generate_centered_tree_layout n) true = some true := by
  decide!

/-- C6, witness: the theorem applied to `[0, 1, 2, 2]`, whose successor is
`[0, 1, 2, 1]`, with pivot `3` and `q = 1`. -/
theorem c6_next_rooted_tree_correct_witness :
    List.length [0, 1, 2, 1] = List.length [0, 1, 2, 2] ∧
    (∀ i, i < 3 → List.getD [0, 1, 2, 1] i 0 = List.getD [0, 1, 2, 2] i 0) ∧
    (∀ i, i < List.length [0, 1, 2, 2] → 3 ≤ i →
      List.getD [0, 1, 2, 1] i 0 = List.getD [0, 1, 2, 1] (i - 3 + 1) 0) :=
  (c6_next_rooted_tree_correct [0, 1, 2, 2] (by decide)).2 [0, 1, 2, 1] 3 1 rfl
    (by refine ⟨by decide, by decide, ?_⟩; decide)
    (by refine ⟨by decide, by decide, ?_⟩; decide)

end Treegen
